import Mathlib

/-!
Verification of the pips puzzle solver core (structures.py and solver.py).

The Python data structures are embedded shallowly:
* `Position`, `Constraint`, `Domino`, `Region`, `Board` mirror the dataclasses.
* Python dicts (`Board.state`) become association lists with explicit
  insert/erase functions reproducing dict semantics (overwrite on existing
  key, delete-if-present).
* Python sets of positions become duplicate-free lists; where a theorem needs
  the set-ness it carries an explicit `Nodup` hypothesis.
* The mutating methods `place_domino` / `remove_domino` become functions
  returning the new board; the recursive backtracking `solve` becomes a
  fuel-indexed function, with a separate theorem showing the fuel bound
  `|empty|/2 + 1` always suffices (the termination argument of the code).
-/

namespace Pips

/-- Grid coordinate, `Position(row, col)` from structures.py. -/
structure Position where
  row : Int
  col : Int
deriving DecidableEq, Repr

/-- The six constraint kinds of `ConstraintType` in structures.py. -/
inductive ConstraintType where
  | EQUAL
  | NOTEQUAL
  | GREATER_THAN
  | LESS_THAN
  | NUMBER
  | NONE
deriving DecidableEq, Repr

/-- `Constraint` dataclass: a kind plus an optional numeric bound. -/
structure Constraint where
  constraint_type : ConstraintType
  value : Option Int := none
deriving DecidableEq, Repr

/-- `Domino` dataclass: two positions, each carrying a dot value. -/
structure Domino where
  pos1 : Position
  pos2 : Position
  dots1 : Int
  dots2 : Int
deriving DecidableEq, Repr

/-- The two positions a domino covers, as a list (`Domino.get_positions`). -/
def dominoPositions (d : Domino) : List Position := [d.pos1, d.pos2]

/-- Board state: the Python dict mapping `Position` to dot value, as an
association list in insertion order. -/
abbrev BoardState := List (Position × Int)

/-- Dict lookup: `board_state[pos]` / `pos in board_state`. -/
def lookupState : BoardState → Position → Option Int
  | [], _ => none
  | (k, v) :: rest, p => if k = p then some v else lookupState rest p

/-- Dict assignment `state[pos] = dots`: overwrite the existing entry in
place if the key is present, else append a new entry. -/
def dictInsert : BoardState → Position → Int → BoardState
  | [], p, v => [(p, v)]
  | (k, w) :: rest, p, v =>
      if k = p then (p, v) :: rest else (k, w) :: dictInsert rest p v

/-- Dict deletion `del state[pos]` guarded by `if pos in state` (so a missing
key is a no-op, matching `remove_domino`). -/
def dictErase : BoardState → Position → BoardState
  | [], _ => []
  | (k, w) :: rest, p => if k = p then rest else (k, w) :: dictErase rest p

/-- The keys of the state dict, `state.keys()`. -/
def stateKeys (s : BoardState) : List Position := s.map Prod.fst

/-- `Region` dataclass: a set of positions (as a list) and a constraint. -/
structure Region where
  positions : List Position
  constraint : Constraint
deriving DecidableEq, Repr

/-- The dot values collected by `Region.validate`: the value at each region
position that is present in the board state. -/
def regionDots (r : Region) (s : BoardState) : List Int :=
  r.positions.filterMap (fun p => lookupState s p)

/-- `Region.validate` from structures.py: pass vacuously while any position
is unfilled, otherwise check the constraint (Equal/NotEqual by distinct
count, the numeric kinds by the sum of the dots; a missing numeric bound
passes). -/
def Region.validate (r : Region) (s : BoardState) : Bool :=
  let dots := regionDots r s
  if dots.length < r.positions.length then true
  else
    match r.constraint.constraint_type with
    | ConstraintType.NONE => true
    | ConstraintType.EQUAL => dots.dedup.length == 1
    | ConstraintType.NOTEQUAL => dots.dedup.length == dots.length
    | ConstraintType.GREATER_THAN =>
        match r.constraint.value with
        | none => true
        | some v => decide (v < dots.sum)
    | ConstraintType.LESS_THAN =>
        match r.constraint.value with
        | none => true
        | some v => decide (dots.sum < v)
    | ConstraintType.NUMBER =>
        match r.constraint.value with
        | none => true
        | some v => decide (dots.sum = v)

/-- `Board`: playable positions, regions, optional tile inventory, the
position-to-dots state dict and the ordered list of placed dominoes. -/
structure Board where
  rows : Option Int
  cols : Option Int
  regions : List Region
  available_dominoes : Option (List (Int × Int))
  valid_positions : List Position
  state : BoardState
  placed_dominoes : List Domino
deriving DecidableEq, Repr

/-- The rectangle of positions generated by `Board.__init__` from
`rows`/`cols`, row-major. -/
def rectanglePositions (rows cols : Nat) : List Position :=
  (List.range rows).flatMap (fun r =>
    (List.range cols).map (fun c => Position.mk (Int.ofNat r) (Int.ofNat c)))

/-- `Board.__init__`: valid positions come from the explicit set when given,
else from the `rows`/`cols` rectangle, else are empty; `state` and
`placed_dominoes` start empty. -/
def mkBoard (rows cols : Option Nat) (regions : List Region)
    (valid_positions : Option (List Position))
    (available_dominoes : Option (List (Int × Int))) : Board :=
  { rows := rows.map Int.ofNat
    cols := cols.map Int.ofNat
    regions := regions
    available_dominoes := available_dominoes
    valid_positions :=
      match valid_positions with
      | some vp => vp
      | none =>
          match rows, cols with
          | some r, some c => rectanglePositions r c
          | _, _ => []
    state := []
    placed_dominoes := [] }

/-- `Board.is_valid_position`. -/
def Board.is_valid_position (b : Board) (p : Position) : Bool :=
  b.valid_positions.contains p

/-- `Board.is_position_occupied`. -/
def Board.is_position_occupied (b : Board) (p : Position) : Bool :=
  (lookupState b.state p).isSome

/-- Python `list.remove` on the placed list: drop the first element equal by
value, no-op when absent (`remove_domino` guards with a membership test). -/
def listRemove : List Domino → Domino → List Domino
  | [], _ => []
  | x :: rest, d => if x = d then rest else x :: listRemove rest d

/-- `Board.remove_domino`: delete both state entries if present and remove
the domino from the placed list by value. -/
def Board.remove_domino (b : Board) (d : Domino) : Board :=
  { b with
    state := dictErase (dictErase b.state d.pos1) d.pos2
    placed_dominoes := listRemove b.placed_dominoes d }

/-- The intermediate board `place_domino` builds before validating the
regions: both dots written into the state dict in order, the domino
appended to the placed list. -/
def placeMid (b : Board) (d : Domino) : Board :=
  { b with
    state := dictInsert (dictInsert b.state d.pos1 d.dots1) d.pos2 d.dots2
    placed_dominoes := b.placed_dominoes ++ [d] }

/-- `Board.place_domino`: fail on an invalid or occupied position; otherwise
write both dots, append to the placed list, and validate every region,
undoing via `remove_domino` when a region rejects. Returns the success flag
together with the resulting board. -/
def Board.place_domino (b : Board) (d : Domino) : Bool × Board :=
  if ¬ b.is_valid_position d.pos1 ∨ ¬ b.is_valid_position d.pos2 then (false, b)
  else if b.is_position_occupied d.pos1 ∨ b.is_position_occupied d.pos2 then (false, b)
  else if (placeMid b d).regions.all (fun r => r.validate (placeMid b d).state) then
    (true, placeMid b d)
  else (false, (placeMid b d).remove_domino d)

/-- `Board.is_complete`: every valid position is filled, by count. -/
def Board.is_complete (b : Board) : Bool :=
  b.state.length == b.valid_positions.length

/-- Lexicographic comparison on `(row, col)`, the sort key of
`get_empty_positions`. -/
def posLe (p q : Position) : Bool :=
  if p.row < q.row then true
  else if q.row < p.row then false
  else decide (p.col ≤ q.col)

/-- Insert a position into a sorted list (helper for the sort below). -/
def insSorted (p : Position) : List Position → List Position
  | [] => [p]
  | q :: rest => if posLe p q then p :: q :: rest else q :: insSorted p rest

/-- Insertion sort by `(row, col)`, modelling Python `sorted`. -/
def sortPositions : List Position → List Position
  | [] => []
  | p :: rest => insSorted p (sortPositions rest)

/-- `Board.get_empty_positions`: the unoccupied valid positions in ascending
`(row, col)` order. -/
def Board.get_empty_positions (b : Board) : List Position :=
  (sortPositions b.valid_positions).filter (fun p => ! b.is_position_occupied p)

/-- `PipsSolver._generate_dominoes`: every pair `(i, j)` with
`0 ≤ i ≤ j ≤ 6`, ascending. Note the solver always calls this in
`__init__`, never consulting `board.available_dominoes`. -/
def generateDominoes : List (Int × Int) :=
  (List.range 7).flatMap (fun i =>
    ((List.range 7).filter (fun j => i ≤ j)).map
      (fun j => (Int.ofNat i, Int.ofNat j)))

/-- `PipsSolver._get_adjacent_positions`: right then down, filtered to
valid positions. -/
def adjacentPositions (b : Board) (p : Position) : List Position :=
  (if b.is_valid_position (Position.mk p.row (p.col + 1))
   then [Position.mk p.row (p.col + 1)] else []) ++
  (if b.is_valid_position (Position.mk (p.row + 1) p.col)
   then [Position.mk (p.row + 1) p.col] else [])

/-- The flattened candidate enumeration of one `solve` level: each valid,
unoccupied neighbour of the anchor, each unused tile from the solver's
(full, board-independent) tile list, each of the two orientations. Every
candidate is paired with the tile tuple it came from, which the code adds
to `used_dominoes` before recursing. -/
def candidates (b : Board) (used : List (Int × Int)) (pos1 : Position) :
    List ((Int × Int) × Domino) :=
  ((adjacentPositions b pos1).filter (fun p2 => ! b.is_position_occupied p2)).flatMap
    (fun pos2 =>
      (generateDominoes.filter (fun t => ! used.contains t)).flatMap
        (fun t =>
          [(t, Domino.mk pos1 pos2 t.1 t.2), (t, Domino.mk pos1 pos2 t.2 t.1)]))

/-- The candidate loop of one `solve` level, parameterized by the next
recursion level `solveNext`: attempt each placement in order; on success
recurse with the tile marked used, and on a failed recursion undo the
placement and continue to the next candidate. -/
def tryCandidates
    (solveNext : Board → List (Int × Int) → Option (Bool × Board)) :
    List ((Int × Int) × Domino) → Board → List (Int × Int) →
    Option (Bool × Board)
  | [], b, _ => some (false, b)
  | (t, d) :: rest, b, used =>
      match b.place_domino d with
      | (false, b1) => tryCandidates solveNext rest b1 used
      | (true, b1) =>
          match solveNext b1 (t :: used) with
          | none => none
          | some (true, b2) => some (true, b2)
          | some (false, b2) =>
              tryCandidates solveNext rest (b2.remove_domino d) used

/-- `PipsSolver.solve`, fuel-indexed: succeed when complete, fail when no
empty position remains, otherwise try every candidate at the first empty
position. `none` means the fuel ran out; `solve_fuel_sufficient` below
shows the code's own termination bound makes that impossible. -/
def solveFuel : Nat → Board → List (Int × Int) → Option (Bool × Board)
  | 0, _, _ => none
  | fuel + 1, b, used =>
      if b.is_complete then some (true, b)
      else
        match b.get_empty_positions with
        | [] => some (false, b)
        | pos1 :: _ =>
            tryCandidates (solveFuel fuel) (candidates b used pos1) b used

/-! ### Dictionary lemmas -/

theorem lookupState_eq_none_iff (s : BoardState) (p : Position) :
    lookupState s p = none ↔ p ∉ stateKeys s := by
  induction s with
  | nil => simp [lookupState, stateKeys]
  | cons kv rest ih =>
      obtain ⟨k, v⟩ := kv
      show (if k = p then some v else lookupState rest p) = none ↔
        p ∉ k :: stateKeys rest
      by_cases h : k = p
      · subst h; simp
      · rw [if_neg h, ih]
        simp only [List.mem_cons, not_or]
        exact ⟨fun hnot => ⟨fun hpk => h hpk.symm, hnot⟩, fun hand => hand.2⟩

theorem isSome_lookupState_iff (s : BoardState) (p : Position) :
    (lookupState s p).isSome = true ↔ p ∈ stateKeys s := by
  rw [Option.isSome_iff_ne_none, ne_eq, lookupState_eq_none_iff, not_not]

theorem lookupState_append (s t : BoardState) (p : Position) :
    lookupState (s ++ t) p =
      match lookupState s p with
      | some v => some v
      | none => lookupState t p := by
  induction s with
  | nil => simp [lookupState]
  | cons kv rest ih =>
      obtain ⟨k, v⟩ := kv
      by_cases h : k = p <;> simp [lookupState, h, ih]

theorem dictInsert_eq_append (s : BoardState) (k : Position) (v : Int)
    (h : lookupState s k = none) : dictInsert s k v = s ++ [(k, v)] := by
  induction s with
  | nil => simp [dictInsert]
  | cons kv rest ih =>
      obtain ⟨k', v'⟩ := kv
      by_cases hk : k' = k
      · simp [lookupState, hk] at h
      · simp only [lookupState, if_neg hk] at h
        simp [dictInsert, hk, ih h]

theorem dictInsert_dictInsert_same (s : BoardState) (k : Position)
    (v1 v2 : Int) : dictInsert (dictInsert s k v1) k v2 = dictInsert s k v2 := by
  induction s with
  | nil => simp [dictInsert]
  | cons kv rest ih =>
      obtain ⟨k', v'⟩ := kv
      by_cases hk : k' = k <;> simp [dictInsert, hk, ih]

theorem lookupState_dictInsert (s : BoardState) (k : Position) (v : Int)
    (p : Position) :
    lookupState (dictInsert s k v) p =
      if k = p then some v else lookupState s p := by
  induction s with
  | nil => simp [dictInsert, lookupState]
  | cons kv rest ih =>
      obtain ⟨k', v'⟩ := kv
      by_cases hk : k' = k
      · subst hk
        by_cases hp : k' = p
        · subst hp; simp [dictInsert, lookupState]
        · simp [dictInsert, lookupState, hp]
      · simp only [dictInsert, if_neg hk]
        by_cases hp : k' = p
        · have hkp : ¬ k = p := fun hkp => hk (hp.trans hkp.symm)
          simp [lookupState, hp, hkp]
        · simp [lookupState, hp, ih]

theorem dictErase_of_not_mem (s : BoardState) (p : Position)
    (h : lookupState s p = none) : dictErase s p = s := by
  induction s with
  | nil => rfl
  | cons kv rest ih =>
      obtain ⟨k, v⟩ := kv
      by_cases hk : k = p
      · simp [lookupState, hk] at h
      · simp only [lookupState, if_neg hk] at h
        simp [dictErase, hk, ih h]

theorem dictErase_cons_self (k : Position) (v : Int) (rest : BoardState) :
    dictErase ((k, v) :: rest) k = rest := by
  simp [dictErase]

theorem dictErase_append_of_not_mem (s t : BoardState) (p : Position)
    (h : lookupState s p = none) :
    dictErase (s ++ t) p = s ++ dictErase t p := by
  induction s with
  | nil => simp
  | cons kv rest ih =>
      obtain ⟨k, v⟩ := kv
      by_cases hk : k = p
      · simp [lookupState, hk] at h
      · simp only [lookupState, if_neg hk] at h
        simp [dictErase, hk, ih h]

/-- Undoing a placement: inserting two fresh keys and then erasing them
restores the original dict, including the degenerate `p1 = p2` case where
the second insert overwrites the first. -/
theorem undo_state (s : BoardState) (p1 p2 : Position) (v1 v2 : Int)
    (h1 : lookupState s p1 = none) (h2 : lookupState s p2 = none) :
    dictErase (dictErase (dictInsert (dictInsert s p1 v1) p2 v2) p1) p2 = s := by
  by_cases hpp : p1 = p2
  · subst hpp
    rw [dictInsert_dictInsert_same, dictInsert_eq_append s p1 v2 h1,
      dictErase_append_of_not_mem s [(p1, v2)] p1 h1, dictErase_cons_self,
      List.append_nil, dictErase_of_not_mem s p1 h1]
  · have h1' : lookupState (dictInsert s p1 v1) p2 = none := by
      rw [lookupState_dictInsert, if_neg hpp, h2]
    rw [dictInsert_eq_append _ p2 v2 h1', dictInsert_eq_append s p1 v1 h1,
      List.append_assoc,
      dictErase_append_of_not_mem s ([(p1, v1)] ++ [(p2, v2)]) p1 h1,
      List.singleton_append, dictErase_cons_self,
      dictErase_append_of_not_mem s [(p2, v2)] p2 h2, dictErase_cons_self,
      List.append_nil]

theorem listRemove_of_not_mem (l : List Domino) (d : Domino) (h : d ∉ l) :
    listRemove l d = l := by
  induction l with
  | nil => rfl
  | cons x rest ih =>
      simp only [List.mem_cons, not_or] at h
      simp [listRemove, Ne.symm h.1, ih h.2]

theorem listRemove_append_self (l : List Domino) (d : Domino) (h : d ∉ l) :
    listRemove (l ++ [d]) d = l := by
  induction l with
  | nil => simp [listRemove]
  | cons x rest ih =>
      simp only [List.mem_cons, not_or] at h
      simp [listRemove, Ne.symm h.1, ih h.2]

/-! ### Shape lemmas for place and remove -/

theorem board_eq_of_parts (b b' : Board) (h1 : b.rows = b'.rows)
    (h2 : b.cols = b'.cols) (h3 : b.regions = b'.regions)
    (h4 : b.available_dominoes = b'.available_dominoes)
    (h5 : b.valid_positions = b'.valid_positions) (h6 : b.state = b'.state)
    (h7 : b.placed_dominoes = b'.placed_dominoes) : b = b' := by
  cases b; cases b'; simp_all

theorem not_occupied_lookup (b : Board) (p : Position)
    (h : ¬ b.is_position_occupied p = true) : lookupState b.state p = none := by
  cases hl : lookupState b.state p with
  | none => rfl
  | some v => exact absurd (by simp [Board.is_position_occupied, hl]) h

/-- Exhaustive description of a failed placement: either nothing was built
(precondition failure) or the intermediate board was undone, with both
positions known unoccupied beforehand. -/
theorem place_false_cases (b : Board) (d : Domino) (b1 : Board)
    (h : b.place_domino d = (false, b1)) :
    b1 = b ∨
      (b1 = (placeMid b d).remove_domino d ∧
        lookupState b.state d.pos1 = none ∧ lookupState b.state d.pos2 = none) := by
  rw [Board.place_domino] at h
  split_ifs at h with h1 h2 h3
  · exact Or.inl (Prod.mk.injEq .. ▸ h).2.symm
  · exact Or.inl (Prod.mk.injEq .. ▸ h).2.symm
  · exact absurd (Prod.mk.injEq .. ▸ h).1 (by simp)
  · refine Or.inr ⟨(Prod.mk.injEq .. ▸ h).2.symm, ?_, ?_⟩
    · exact not_occupied_lookup b d.pos1 (fun hc => h2 (Or.inl hc))
    · exact not_occupied_lookup b d.pos2 (fun hc => h2 (Or.inr hc))

/-- Exhaustive description of a successful placement: both positions valid
and previously unoccupied, every region validates the new state, and the
result is exactly the intermediate board. -/
theorem place_true_elim (b : Board) (d : Domino) (b1 : Board)
    (h : b.place_domino d = (true, b1)) :
    b.is_valid_position d.pos1 = true ∧ b.is_valid_position d.pos2 = true ∧
    lookupState b.state d.pos1 = none ∧ lookupState b.state d.pos2 = none ∧
    ((placeMid b d).regions.all (fun r => r.validate (placeMid b d).state)) = true ∧
    b1 = placeMid b d := by
  rw [Board.place_domino] at h
  split_ifs at h with h1 h2 h3
  · exact absurd (Prod.mk.injEq .. ▸ h).1 (by simp)
  · exact absurd (Prod.mk.injEq .. ▸ h).1 (by simp)
  · push_neg at h1
    refine ⟨?_, ?_, ?_, ?_, h3, (Prod.mk.injEq .. ▸ h).2.symm⟩
    · exact Bool.of_not_eq_false (by simpa using h1.1)
    · exact Bool.of_not_eq_false (by simpa using h1.2)
    · exact not_occupied_lookup b d.pos1 (fun hc => h2 (Or.inl hc))
    · exact not_occupied_lookup b d.pos2 (fun hc => h2 (Or.inr hc))
  · exact absurd (Prod.mk.injEq .. ▸ h).1 (by simp)

theorem remove_placeMid_state (b : Board) (d : Domino)
    (h1 : lookupState b.state d.pos1 = none)
    (h2 : lookupState b.state d.pos2 = none) :
    ((placeMid b d).remove_domino d).state = b.state :=
  undo_state b.state d.pos1 d.pos2 d.dots1 d.dots2 h1 h2

theorem remove_placeMid_placed (b : Board) (d : Domino)
    (h : d ∉ b.placed_dominoes) :
    ((placeMid b d).remove_domino d).placed_dominoes = b.placed_dominoes :=
  listRemove_append_self b.placed_dominoes d h

/-! ### The board invariant of the solver discipline -/

/-- The invariant of §8 of the design: state keys are valid positions, the
keys are covered exactly by the placed dominoes, and distinct placed
dominoes never overlap. `nodup_keys` records dict-ness of the state. -/
structure BoardInv (b : Board) : Prop where
  nodup_keys : (stateKeys b.state).Nodup
  keys_valid : ∀ p ∈ stateKeys b.state, p ∈ b.valid_positions
  cover : ∀ p, p ∈ stateKeys b.state ↔
    ∃ d ∈ b.placed_dominoes, p ∈ dominoPositions d
  disjoint : b.placed_dominoes.Pairwise
    (fun d1 d2 => ∀ p, p ∈ dominoPositions d1 → p ∉ dominoPositions d2)

theorem pos1_mem_keys_of_mem_placed (b : Board) (d : Domino)
    (hInv : BoardInv b) (hd : d ∈ b.placed_dominoes) :
    d.pos1 ∈ stateKeys b.state :=
  (hInv.cover d.pos1).mpr ⟨d, hd, by simp [dominoPositions]⟩

/-- Under the invariant, a placement whose first position is unoccupied is
not already among the placed dominoes. -/
theorem not_mem_placed_of_pos1_free (b : Board) (d : Domino)
    (hInv : BoardInv b) (h1 : lookupState b.state d.pos1 = none) :
    d ∉ b.placed_dominoes := fun hd =>
  ((lookupState_eq_none_iff b.state d.pos1).mp h1)
    (pos1_mem_keys_of_mem_placed b d hInv hd)

/-- A failed `place_domino` leaves the board exactly as it was, provided the
board satisfies the solver invariant. -/
theorem place_false_restores (b : Board) (d : Domino) (b1 : Board)
    (hInv : BoardInv b) (h : b.place_domino d = (false, b1)) : b1 = b := by
  rcases place_false_cases b d b1 h with rfl | ⟨rfl, h1, h2⟩
  · rfl
  · exact board_eq_of_parts _ _ rfl rfl rfl rfl rfl
      (remove_placeMid_state b d h1 h2)
      (remove_placeMid_placed b d (not_mem_placed_of_pos1_free b d hInv h1))

/-- A successful `place_domino` followed by `remove_domino` of the same
domino restores the board exactly, under the solver invariant. -/
theorem place_true_then_remove (b : Board) (d : Domino) (b1 : Board)
    (hInv : BoardInv b) (h : b.place_domino d = (true, b1)) :
    b1.remove_domino d = b := by
  obtain ⟨_, _, h1, h2, _, rfl⟩ := place_true_elim b d b1 h
  exact board_eq_of_parts _ _ rfl rfl rfl rfl rfl
    (remove_placeMid_state b d h1 h2)
    (remove_placeMid_placed b d (not_mem_placed_of_pos1_free b d hInv h1))

/-! ### Key-set and placed-list manipulation lemmas -/

theorem is_valid_position_iff (b : Board) (p : Position) :
    b.is_valid_position p = true ↔ p ∈ b.valid_positions := by
  simp [Board.is_valid_position]

theorem mem_keys_dictInsert (s : BoardState) (k : Position) (v : Int)
    (p : Position) :
    p ∈ stateKeys (dictInsert s k v) ↔ p = k ∨ p ∈ stateKeys s := by
  rw [← isSome_lookupState_iff, ← isSome_lookupState_iff, lookupState_dictInsert]
  by_cases h : k = p
  · simp [h]
  · rw [if_neg h]
    exact ⟨fun hm => Or.inr hm, fun hm => hm.resolve_left (fun hp => h hp.symm)⟩

theorem dictErase_sublist (s : BoardState) (p : Position) :
    (dictErase s p).Sublist s := by
  induction s with
  | nil => simp [dictErase]
  | cons kv rest ih =>
      obtain ⟨k, v⟩ := kv
      by_cases hk : k = p
      · simp only [dictErase, if_pos hk]
        exact List.sublist_cons_self (k, v) rest
      · simpa [dictErase, hk] using ih.cons₂ (k, v)

theorem keys_dictErase_sublist (s : BoardState) (p : Position) :
    (stateKeys (dictErase s p)).Sublist (stateKeys s) :=
  (dictErase_sublist s p).map Prod.fst

theorem mem_keys_dictErase (s : BoardState) (p q : Position)
    (hnd : (stateKeys s).Nodup) :
    q ∈ stateKeys (dictErase s p) ↔ q ∈ stateKeys s ∧ q ≠ p := by
  induction s with
  | nil => simp [dictErase, stateKeys]
  | cons kv rest ih =>
      obtain ⟨k, v⟩ := kv
      have hkeys : stateKeys ((k, v) :: rest) = k :: stateKeys rest := rfl
      rw [hkeys] at hnd
      obtain ⟨hk_nin, hnd'⟩ := List.nodup_cons.mp hnd
      by_cases hk : k = p
      · rw [show dictErase ((k, v) :: rest) p = rest by simp [dictErase, hk],
          hkeys, List.mem_cons]
        subst hk
        constructor
        · intro hq
          refine ⟨Or.inr hq, ?_⟩
          rintro rfl
          exact hk_nin hq
        · rintro ⟨rfl | hq, hne⟩
          · exact absurd rfl hne
          · exact hq
      · rw [show dictErase ((k, v) :: rest) p = (k, v) :: dictErase rest p by
            simp [dictErase, hk],
          show stateKeys ((k, v) :: dictErase rest p) =
            k :: stateKeys (dictErase rest p) from rfl,
          hkeys, List.mem_cons, List.mem_cons, ih hnd']
        constructor
        · rintro (rfl | ⟨hq, hne⟩)
          · exact ⟨Or.inl rfl, hk⟩
          · exact ⟨Or.inr hq, hne⟩
        · rintro ⟨rfl | hq, hne⟩
          · exact Or.inl rfl
          · exact Or.inr ⟨hq, hne⟩

theorem listRemove_sublist (l : List Domino) (d : Domino) :
    (listRemove l d).Sublist l := by
  induction l with
  | nil => simp [listRemove]
  | cons x rest ih =>
      by_cases hx : x = d
      · simp only [listRemove, if_pos hx]
        exact List.sublist_cons_self x rest
      · simpa [listRemove, hx] using ih.cons₂ x

theorem mem_listRemove_of_ne (l : List Domino) (d x : Domino)
    (hx : x ∈ l) (hne : x ≠ d) : x ∈ listRemove l d := by
  induction l with
  | nil => simp at hx
  | cons y rest ih =>
      rcases List.mem_cons.mp hx with rfl | hx'
      · simp [listRemove, hne]
      · by_cases hy : y = d
        · simpa [listRemove, hy] using hx'
        · simp [listRemove, hy, List.mem_cons]
          by_cases hxy : x = y
          · exact Or.inl hxy
          · exact Or.inr (ih hx')

/-- With pairwise-disjoint placed dominoes, a domino never occurs twice, so
removing it once removes it completely. -/
theorem not_mem_listRemove_self (l : List Domino) (d : Domino)
    (hpw : l.Pairwise
      (fun d1 d2 => ∀ p, p ∈ dominoPositions d1 → p ∉ dominoPositions d2)) :
    d ∉ listRemove l d := by
  induction l with
  | nil => simp [listRemove]
  | cons x rest ih =>
      obtain ⟨hx, hrest⟩ := List.pairwise_cons.mp hpw
      by_cases hxd : x = d
      · subst hxd
        rw [show listRemove (x :: rest) x = rest by simp [listRemove]]
        intro hd
        exact hx x hd x.pos1 (by simp [dominoPositions]) (by simp [dominoPositions])
      · rw [show listRemove (x :: rest) d = x :: listRemove rest d by
            simp [listRemove, hxd],
          List.mem_cons]
        rintro (hdx | hd)
        · exact hxd hdx.symm
        · exact ih hrest hd

/-! ### Invariant preservation -/

/-- The two fresh-key inserts of a placement, written as list appends. -/
theorem placeMid_state_eq (b : Board) (d : Domino)
    (h1 : lookupState b.state d.pos1 = none)
    (h2 : lookupState b.state d.pos2 = none) :
    (placeMid b d).state =
      if d.pos1 = d.pos2 then b.state ++ [(d.pos1, d.dots2)]
      else b.state ++ [(d.pos1, d.dots1), (d.pos2, d.dots2)] := by
  by_cases hpp : d.pos1 = d.pos2
  · rw [if_pos hpp]
    show dictInsert (dictInsert b.state d.pos1 d.dots1) d.pos2 d.dots2 = _
    rw [← hpp, dictInsert_dictInsert_same, dictInsert_eq_append b.state d.pos1 d.dots2 h1]
  · rw [if_neg hpp]
    show dictInsert (dictInsert b.state d.pos1 d.dots1) d.pos2 d.dots2 = _
    have h2' : lookupState (dictInsert b.state d.pos1 d.dots1) d.pos2 = none := by
      rw [lookupState_dictInsert, if_neg hpp, h2]
    rw [dictInsert_eq_append _ d.pos2 d.dots2 h2',
      dictInsert_eq_append b.state d.pos1 d.dots1 h1, List.append_assoc]
    rfl

/-- A fresh board (empty state, nothing placed) satisfies the invariant. -/
theorem boardInv_empty (b : Board) (hs : b.state = [])
    (hp : b.placed_dominoes = []) : BoardInv b := by
  refine ⟨?_, ?_, ?_, ?_⟩ <;> simp [hs, hp, stateKeys]

/-- A successful placement preserves the invariant. -/
theorem boardInv_place_true (b : Board) (d : Domino) (b1 : Board)
    (hInv : BoardInv b) (h : b.place_domino d = (true, b1)) : BoardInv b1 := by
  obtain ⟨hv1, hv2, h1, h2, _, rfl⟩ := place_true_elim b d b1 h
  have hn1 : d.pos1 ∉ stateKeys b.state := (lookupState_eq_none_iff _ _).mp h1
  have hn2 : d.pos2 ∉ stateKeys b.state := (lookupState_eq_none_iff _ _).mp h2
  have hmem : ∀ p, p ∈ stateKeys (placeMid b d).state ↔
      p = d.pos2 ∨ p = d.pos1 ∨ p ∈ stateKeys b.state := by
    intro p
    show p ∈ stateKeys (dictInsert (dictInsert b.state d.pos1 d.dots1) d.pos2 d.dots2) ↔ _
    rw [mem_keys_dictInsert, mem_keys_dictInsert]
  refine ⟨?_, ?_, ?_, ?_⟩
  · rw [placeMid_state_eq b d h1 h2]
    by_cases hpp : d.pos1 = d.pos2
    · rw [if_pos hpp,
        show stateKeys (b.state ++ [(d.pos1, d.dots2)]) =
          stateKeys b.state ++ [d.pos1] by simp [stateKeys]]
      rw [List.nodup_append]
      exact ⟨hInv.nodup_keys, List.nodup_singleton _, by simpa using hn1⟩
    · rw [if_neg hpp,
        show stateKeys (b.state ++ [(d.pos1, d.dots1), (d.pos2, d.dots2)]) =
          stateKeys b.state ++ [d.pos1, d.pos2] by simp [stateKeys]]
      rw [List.nodup_append]
      refine ⟨hInv.nodup_keys, by simp [hpp], ?_⟩
      intro p hp hp'
      rcases List.mem_cons.mp hp' with rfl | hp''
      · exact hn1 hp
      · rcases List.mem_singleton.mp hp'' with rfl
        exact hn2 hp
  · intro p hp
    rcases (hmem p).mp hp with rfl | rfl | hp'
    · exact (is_valid_position_iff b _).mp hv2
    · exact (is_valid_position_iff b _).mp hv1
    · exact hInv.keys_valid p hp'
  · intro p
    rw [hmem p]
    show _ ↔ ∃ d' ∈ b.placed_dominoes ++ [d], p ∈ dominoPositions d'
    constructor
    · rintro (rfl | rfl | hp')
      · exact ⟨d, by simp, by simp [dominoPositions]⟩
      · exact ⟨d, by simp, by simp [dominoPositions]⟩
      · obtain ⟨d', hd', hpd'⟩ := (hInv.cover p).mp hp'
        exact ⟨d', by simp [hd'], hpd'⟩
    · rintro ⟨d', hd', hpd'⟩
      rcases List.mem_append.mp hd' with hd'' | hd''
      · exact Or.inr (Or.inr ((hInv.cover p).mpr ⟨d', hd'', hpd'⟩))
      · rcases List.mem_singleton.mp hd'' with rfl
        rcases (by simpa [dominoPositions] using hpd' : p = d'.pos1 ∨ p = d'.pos2)
          with rfl | rfl
        · exact Or.inr (Or.inl rfl)
        · exact Or.inl rfl
  · show (b.placed_dominoes ++ [d]).Pairwise _
    rw [List.pairwise_append]
    refine ⟨hInv.disjoint, List.pairwise_singleton _ _, ?_⟩
    intro d1 hd1 d2 hd2 p hp1 hp2
    rcases List.mem_singleton.mp hd2 with rfl
    have hk : p ∈ stateKeys b.state := (hInv.cover p).mpr ⟨d1, hd1, hp1⟩
    rcases (by simpa [dominoPositions] using hp2 : p = d2.pos1 ∨ p = d2.pos2)
      with rfl | rfl
    · exact hn1 hk
    · exact hn2 hk

/-- Removing a currently placed domino preserves the invariant. -/
theorem boardInv_remove_mem (b : Board) (d : Domino) (hInv : BoardInv b)
    (hd : d ∈ b.placed_dominoes) : BoardInv (b.remove_domino d) := by
  have hsub : (stateKeys (b.remove_domino d).state).Sublist (stateKeys b.state) :=
    ((dictErase_sublist _ d.pos2).trans (dictErase_sublist _ d.pos1)).map Prod.fst
  have hnd1 : (stateKeys (dictErase b.state d.pos1)).Nodup :=
    hInv.nodup_keys.sublist (keys_dictErase_sublist _ _)
  have hmem : ∀ p, p ∈ stateKeys (b.remove_domino d).state ↔
      p ∈ stateKeys b.state ∧ p ≠ d.pos1 ∧ p ≠ d.pos2 := by
    intro p
    show p ∈ stateKeys (dictErase (dictErase b.state d.pos1) d.pos2) ↔ _
    rw [mem_keys_dictErase _ _ _ hnd1, mem_keys_dictErase _ _ _ hInv.nodup_keys]
    tauto
  have hsymm : Symmetric
      (fun d1 d2 : Domino => ∀ p, p ∈ dominoPositions d1 → p ∉ dominoPositions d2) :=
    fun d1 d2 hR p hp2 hp1 => hR p hp1 hp2
  have hpairs : ∀ d' ∈ b.placed_dominoes, d' ≠ d →
      ∀ p, p ∈ dominoPositions d' → p ∉ dominoPositions d := by
    intro d' hd' hne
    exact List.Pairwise.forall hsymm hInv.disjoint hd' hd hne
  refine ⟨?_, ?_, ?_, ?_⟩
  · exact hInv.nodup_keys.sublist hsub
  · exact fun p hp => hInv.keys_valid p (hsub.mem hp)
  · intro p
    rw [hmem p]
    show _ ↔ ∃ d' ∈ listRemove b.placed_dominoes d, p ∈ dominoPositions d'
    constructor
    · rintro ⟨hp, hne1, hne2⟩
      obtain ⟨d', hd', hpd'⟩ := (hInv.cover p).mp hp
      have hdd : d' ≠ d := by
        rintro rfl
        rcases (by simpa [dominoPositions] using hpd' : p = d'.pos1 ∨ p = d'.pos2)
          with rfl | rfl
        · exact hne1 rfl
        · exact hne2 rfl
      exact ⟨d', mem_listRemove_of_ne _ _ _ hd' hdd, hpd'⟩
    · rintro ⟨d', hd', hpd'⟩
      have hd'' : d' ∈ b.placed_dominoes := (listRemove_sublist _ _).mem hd'
      have hdd : d' ≠ d := by
        rintro rfl
        exact not_mem_listRemove_self _ _ hInv.disjoint hd'
      have hp : p ∈ stateKeys b.state := (hInv.cover p).mpr ⟨d', hd'', hpd'⟩
      have hnotd : p ∉ dominoPositions d := hpairs d' hd'' hdd p hpd'
      simp only [dominoPositions, List.mem_cons, List.mem_singleton, not_or] at hnotd
      exact ⟨hp, hnotd.1, hnotd.2.1⟩
  · exact hInv.disjoint.sublist (listRemove_sublist _ _)

/-! ### Reachability -/

/-- Boards reachable from a fresh construction by an arbitrary sequence of
`place_domino` and `remove_domino` calls. -/
inductive Reachable : Board → Prop
  | init (rows cols : Option Nat) (regions : List Region)
      (valid_positions : Option (List Position))
      (available_dominoes : Option (List (Int × Int))) :
      Reachable (mkBoard rows cols regions valid_positions available_dominoes)
  | place (b : Board) (d : Domino) : Reachable b → Reachable (b.place_domino d).2
  | remove (b : Board) (d : Domino) : Reachable b → Reachable (b.remove_domino d)

/-- Boards reachable under the solver discipline, in which every
`remove_domino` call names a currently placed domino (the only removals the
search performs). -/
inductive SolverReachable : Board → Prop
  | init (rows cols : Option Nat) (regions : List Region)
      (valid_positions : Option (List Position))
      (available_dominoes : Option (List (Int × Int))) :
      SolverReachable (mkBoard rows cols regions valid_positions available_dominoes)
  | place (b : Board) (d : Domino) : SolverReachable b →
      SolverReachable (b.place_domino d).2
  | remove (b : Board) (d : Domino) : SolverReachable b →
      d ∈ b.placed_dominoes → SolverReachable (b.remove_domino d)

/-- Every solver-reachable board satisfies the invariant. -/
theorem solverReachable_boardInv (b : Board) (h : SolverReachable b) :
    BoardInv b := by
  induction h with
  | init rows cols regions valid avail => exact boardInv_empty _ rfl rfl
  | place b d hb ih =>
      rcases hres : b.place_domino d with ⟨r, b1⟩
      show BoardInv b1
      cases r with
      | false => exact (place_false_restores b d b1 ih hres) ▸ ih
      | true => exact boardInv_place_true b d b1 ih hres
  | remove b d hb hmem ih => exact boardInv_remove_mem b d ih hmem

/-! ### Sorting and empty-position counting -/

theorem insSorted_perm (p : Position) (l : List Position) :
    (insSorted p l).Perm (p :: l) := by
  induction l with
  | nil => simp [insSorted]
  | cons q rest ih =>
      by_cases h : posLe p q = true
      · simp [insSorted, h]
      · rw [show insSorted p (q :: rest) = q :: insSorted p rest by
            simp [insSorted, h]]
        exact (ih.cons q).trans (List.Perm.swap p q rest)

theorem sortPositions_perm (l : List Position) : (sortPositions l).Perm l := by
  induction l with
  | nil => simp [sortPositions]
  | cons p rest ih => exact (insSorted_perm p (sortPositions rest)).trans (ih.cons p)

theorem mem_sortPositions (l : List Position) (p : Position) :
    p ∈ sortPositions l ↔ p ∈ l :=
  (sortPositions_perm l).mem_iff

/-- Filter-length monotonicity: a stricter occupancy predicate keeps at most
as many empty cells. -/
theorem length_filter_mono_not (l : List Position) (occB occM : Position → Bool)
    (hmono : ∀ p, occB p = true → occM p = true) :
    (l.filter (fun p => ! occM p)).length ≤ (l.filter (fun p => ! occB p)).length := by
  induction l with
  | nil => simp
  | cons a rest ih =>
      cases hB : occB a
      · cases hM : occM a
        · simpa [List.filter_cons, hB, hM] using Nat.succ_le_succ ih
        · simp only [List.filter_cons, hB, hM]
          exact Nat.le_succ_of_le ih
      · have hM := hmono a hB
        simpa [List.filter_cons, hB, hM] using ih

/-- Newly occupying one previously empty cell loses at least one empty
cell. -/
theorem length_filter_one_removed (l : List Position) (occB occM : Position → Bool)
    (p2 : Position) (hmono : ∀ p, occB p = true → occM p = true) (h2 : p2 ∈ l)
    (hM2 : occM p2 = true) (hB2 : occB p2 = false) :
    (l.filter (fun p => ! occM p)).length + 1 ≤
      (l.filter (fun p => ! occB p)).length := by
  induction l with
  | nil => simp at h2
  | cons a rest ih =>
      by_cases ha : a = p2
      · subst ha
        simp only [List.filter_cons, hM2, hB2]
        simpa using Nat.succ_le_succ (length_filter_mono_not rest occB occM hmono)
      · have h2' : p2 ∈ rest := (List.mem_cons.mp h2).resolve_left
          (fun hc => ha hc.symm)
        cases hB : occB a
        · cases hM : occM a
          · simpa [List.filter_cons, hB, hM] using Nat.succ_le_succ (ih h2')
          · simp only [List.filter_cons, hB, hM]
            exact Nat.le_succ_of_le (ih h2')
        · have hM := hmono a hB
          simpa [List.filter_cons, hB, hM] using ih h2'

/-- Newly occupying two distinct previously empty cells loses at least two
empty cells. -/
theorem length_filter_two_removed (l : List Position) (occB occM : Position → Bool)
    (p1 p2 : Position) (hmono : ∀ p, occB p = true → occM p = true)
    (h1 : p1 ∈ l) (h2 : p2 ∈ l) (hne : p1 ≠ p2)
    (hM1 : occM p1 = true) (hM2 : occM p2 = true)
    (hB1 : occB p1 = false) (hB2 : occB p2 = false) :
    (l.filter (fun p => ! occM p)).length + 2 ≤
      (l.filter (fun p => ! occB p)).length := by
  induction l with
  | nil => simp at h1
  | cons a rest ih =>
      by_cases ha1 : a = p1
      · subst ha1
        have h2' : p2 ∈ rest := (List.mem_cons.mp h2).resolve_left
          (fun hc => hne hc.symm)
        simp only [List.filter_cons, hM1, hB1]
        simpa using Nat.succ_le_succ
          (length_filter_one_removed rest occB occM p2 hmono h2' hM2 hB2)
      · by_cases ha2 : a = p2
        · subst ha2
          have h1' : p1 ∈ rest := (List.mem_cons.mp h1).resolve_left
            (fun hc => hne.symm hc.symm)
          simp only [List.filter_cons, hM2, hB2]
          simpa using Nat.succ_le_succ
            (length_filter_one_removed rest occB occM p1 hmono h1' hM1 hB1)
        · have h1' : p1 ∈ rest := (List.mem_cons.mp h1).resolve_left
            (fun hc => ha1 hc.symm)
          have h2' : p2 ∈ rest := (List.mem_cons.mp h2).resolve_left
            (fun hc => ha2 hc.symm)
          cases hB : occB a
          · cases hM : occM a
            · simpa [List.filter_cons, hB, hM] using
                Nat.succ_le_succ (ih h1' h2')
            · simp only [List.filter_cons, hB, hM]
              exact Nat.le_succ_of_le (ih h1' h2')
          · have hM := hmono a hB
            simpa [List.filter_cons, hB, hM] using ih h1' h2'

/-- Occupancy after the two inserts of a placement. -/
theorem occupied_placeMid (b : Board) (d : Domino) (p : Position) :
    (placeMid b d).is_position_occupied p =
      (decide (p = d.pos2) || decide (p = d.pos1) || b.is_position_occupied p) := by
  show (lookupState (dictInsert (dictInsert b.state d.pos1 d.dots1)
    d.pos2 d.dots2) p).isSome = _
  rw [lookupState_dictInsert]
  by_cases h2 : d.pos2 = p
  · subst h2
    simp
  · rw [if_neg h2, lookupState_dictInsert]
    have h2' : ¬ p = d.pos2 := fun hc => h2 hc.symm
    by_cases h1 : d.pos1 = p
    · subst h1
      simp [h2']
    · have h1' : ¬ p = d.pos1 := fun hc => h1 hc.symm
      rw [if_neg h1]
      simp [Board.is_position_occupied, h1', h2']

theorem get_empty_positions_congr (b b' : Board) (hs : b'.state = b.state)
    (hv : b'.valid_positions = b.valid_positions) :
    b'.get_empty_positions = b.get_empty_positions := by
  unfold Board.get_empty_positions Board.is_position_occupied
  rw [hs, hv]

theorem place_false_state_valid (b : Board) (d : Domino) (b1 : Board)
    (h : b.place_domino d = (false, b1)) :
    b1.state = b.state ∧ b1.valid_positions = b.valid_positions := by
  rcases place_false_cases b d b1 h with rfl | ⟨rfl, h1, h2⟩
  · exact ⟨rfl, rfl⟩
  · exact ⟨remove_placeMid_state b d h1 h2, rfl⟩

/-- A successful placement with two distinct positions strictly loses at
least two empty cells. -/
theorem place_true_empty_le (b : Board) (d : Domino) (b1 : Board)
    (h : b.place_domino d = (true, b1)) (hne : d.pos1 ≠ d.pos2) :
    b1.get_empty_positions.length + 2 ≤ b.get_empty_positions.length := by
  obtain ⟨hv1, hv2, h1, h2, _, rfl⟩ := place_true_elim b d b1 h
  show ((sortPositions (placeMid b d).valid_positions).filter
    (fun p => ! (placeMid b d).is_position_occupied p)).length + 2 ≤ _
  rw [show (placeMid b d).valid_positions = b.valid_positions from rfl]
  refine length_filter_two_removed (sortPositions b.valid_positions)
    b.is_position_occupied (placeMid b d).is_position_occupied d.pos1 d.pos2
    ?_ ?_ ?_ hne ?_ ?_ ?_ ?_
  · intro p hp
    rw [occupied_placeMid]
    simp [hp]
  · rw [mem_sortPositions]
    exact (is_valid_position_iff b _).mp hv1
  · rw [mem_sortPositions]
    exact (is_valid_position_iff b _).mp hv2
  · rw [occupied_placeMid]
    simp
  · rw [occupied_placeMid]
    simp
  · show (lookupState b.state d.pos1).isSome = false
    rw [h1]
    rfl
  · show (lookupState b.state d.pos2).isSome = false
    rw [h2]
    rfl

/-- Exact version of the one-cell loss, for duplicate-free cell lists. -/
theorem length_filter_one_removed_exact (l : List Position)
    (occB occM : Position → Bool) (p2 : Position)
    (heq : ∀ p ∈ l, occM p = (decide (p = p2) || occB p)) (hnd : l.Nodup)
    (h2 : p2 ∈ l) (hB2 : occB p2 = false) :
    (l.filter (fun p => ! occM p)).length + 1 =
      (l.filter (fun p => ! occB p)).length := by
  induction l with
  | nil => simp at h2
  | cons a rest ih =>
      obtain ⟨hanin, hnd'⟩ := List.nodup_cons.mp hnd
      by_cases ha : a = p2
      · subst ha
        have hMa : occM a = true := by
          rw [heq a (by simp)]
          simp
        have hfeq : rest.filter (fun p => ! occM p) =
            rest.filter (fun p => ! occB p) := by
          apply List.filter_congr
          intro p hp
          have hne : ¬ p = a := fun hc => hanin (hc ▸ hp)
          rw [heq p (by simp [hp])]
          simp [hne]
        simp [List.filter_cons, hMa, hB2, hfeq]
      · have h2' : p2 ∈ rest := (List.mem_cons.mp h2).resolve_left
          (fun hc => ha hc.symm)
        have hMa : occM a = occB a := by
          rw [heq a (by simp)]
          simp [ha]
        have hrec := ih (fun p hp => heq p (by simp [hp])) hnd' h2'
        cases hB : occB a
        · have : occM a = false := hMa.trans hB
          simpa [List.filter_cons, hB, this] using congrArg Nat.succ hrec
        · have : occM a = true := hMa.trans hB
          simpa [List.filter_cons, hB, this] using hrec

/-- Exact version of the two-cell loss, for duplicate-free cell lists. -/
theorem length_filter_two_removed_exact (l : List Position)
    (occB occM : Position → Bool) (p1 p2 : Position)
    (heq : ∀ p ∈ l, occM p =
      (decide (p = p2) || decide (p = p1) || occB p))
    (hnd : l.Nodup) (h1 : p1 ∈ l) (h2 : p2 ∈ l) (hne : p1 ≠ p2)
    (hB1 : occB p1 = false) (hB2 : occB p2 = false) :
    (l.filter (fun p => ! occM p)).length + 2 =
      (l.filter (fun p => ! occB p)).length := by
  induction l with
  | nil => simp at h1
  | cons a rest ih =>
      obtain ⟨hanin, hnd'⟩ := List.nodup_cons.mp hnd
      by_cases ha1 : a = p1
      · subst ha1
        have hMa : occM a = true := by
          rw [heq a (by simp)]
          simp
        have h2' : p2 ∈ rest := (List.mem_cons.mp h2).resolve_left
          (fun hc => hne hc.symm)
        have hrec := length_filter_one_removed_exact rest occB occM p2
          (fun p hp => by
            have hpa : ¬ p = a := fun hc => hanin (hc ▸ hp)
            rw [heq p (by simp [hp])]
            simp [hpa])
          hnd' h2' hB2
        simp only [List.filter_cons, hMa, hB1]
        simpa using congrArg Nat.succ hrec
      · by_cases ha2 : a = p2
        · subst ha2
          have hMa : occM a = true := by
            rw [heq a (by simp)]
            simp
          have h1' : p1 ∈ rest := (List.mem_cons.mp h1).resolve_left
            (fun hc => hne.symm hc.symm)
          have hrec := length_filter_one_removed_exact rest occB occM p1
            (fun p hp => by
              have hpa : ¬ p = a := fun hc => hanin (hc ▸ hp)
              rw [heq p (by simp [hp])]
              simp [hpa])
            hnd' h1' hB1
          simp only [List.filter_cons, hMa, hB2]
          simpa using congrArg Nat.succ hrec
        · have h1' : p1 ∈ rest := (List.mem_cons.mp h1).resolve_left
            (fun hc => ha1 hc.symm)
          have h2' : p2 ∈ rest := (List.mem_cons.mp h2).resolve_left
            (fun hc => ha2 hc.symm)
          have hMa : occM a = occB a := by
            rw [heq a (by simp)]
            simp [ha1, ha2]
          have hrec := ih (fun p hp => heq p (by simp [hp])) hnd' h1' h2'
          cases hB : occB a
          · have : occM a = false := hMa.trans hB
            simpa [List.filter_cons, hB, this] using congrArg Nat.succ hrec
          · have : occM a = true := hMa.trans hB
            simpa [List.filter_cons, hB, this] using hrec

/-- On a duplicate-free board, a successful placement with two distinct
positions loses exactly two empty cells. -/
theorem place_true_empty_exact (b : Board) (d : Domino) (b1 : Board)
    (hnd : b.valid_positions.Nodup) (hne : d.pos1 ≠ d.pos2)
    (h : b.place_domino d = (true, b1)) :
    b1.get_empty_positions.length + 2 = b.get_empty_positions.length := by
  obtain ⟨hv1, hv2, h1, h2, _, rfl⟩ := place_true_elim b d b1 h
  show ((sortPositions (placeMid b d).valid_positions).filter
    (fun p => ! (placeMid b d).is_position_occupied p)).length + 2 = _
  rw [show (placeMid b d).valid_positions = b.valid_positions from rfl]
  refine length_filter_two_removed_exact (sortPositions b.valid_positions)
    b.is_position_occupied (placeMid b d).is_position_occupied d.pos1 d.pos2
    (fun p _ => occupied_placeMid b d p)
    ((sortPositions_perm b.valid_positions).nodup_iff.mpr hnd)
    ?_ ?_ hne ?_ ?_
  · rw [mem_sortPositions]
    exact (is_valid_position_iff b _).mp hv1
  · rw [mem_sortPositions]
    exact (is_valid_position_iff b _).mp hv2
  · show (lookupState b.state d.pos1).isSome = false
    rw [h1]
    rfl
  · show (lookupState b.state d.pos2).isSome = false
    rw [h2]
    rfl

/-- A neighbour produced by `_get_adjacent_positions` is never the anchor
itself. -/
theorem adjacent_ne (b : Board) (p q : Position)
    (h : q ∈ adjacentPositions b p) : p ≠ q := by
  unfold adjacentPositions at h
  rw [List.mem_append] at h
  rcases h with h | h
  · split at h
    · rcases List.mem_singleton.mp h with rfl
      intro hc
      have := congrArg Position.col hc
      simp at this
    · simp at h
  · split at h
    · rcases List.mem_singleton.mp h with rfl
      intro hc
      have := congrArg Position.row hc
      simp at this
    · simp at h

/-- Every candidate placement joins two distinct cells. -/
theorem candidates_pos_ne (b : Board) (used : List (Int × Int))
    (pos1 : Position) :
    ∀ td ∈ candidates b used pos1, td.2.pos1 ≠ td.2.pos2 := by
  intro td htd
  unfold candidates at htd
  rw [List.mem_flatMap] at htd
  obtain ⟨pos2, hpos2, htd⟩ := htd
  rw [List.mem_filter] at hpos2
  have hne := adjacent_ne b pos1 pos2 hpos2.1
  rw [List.mem_flatMap] at htd
  obtain ⟨t, _, htd⟩ := htd
  rcases List.mem_cons.mp htd with rfl | htd
  · exact hne
  · rcases List.mem_singleton.mp htd with rfl
    exact hne

/-! ### Termination of the backtracking search -/

/-- A failed candidate loop leaves the board state (and the fixed board
components the search reads) exactly as at entry, assuming the recursion
level does too. -/
theorem tryCandidates_false_restores
    (solveNext : Board → List (Int × Int) → Option (Bool × Board))
    (hrec : ∀ b used b2, solveNext b used = some (false, b2) →
      b2.state = b.state ∧ b2.valid_positions = b.valid_positions) :
    ∀ cands b used b2,
      tryCandidates solveNext cands b used = some (false, b2) →
      b2.state = b.state ∧ b2.valid_positions = b.valid_positions := by
  intro cands
  induction cands with
  | nil =>
      intro b used b2 h
      simp only [tryCandidates, Option.some.injEq, Prod.mk.injEq, true_and] at h
      rw [h]
      exact ⟨rfl, rfl⟩
  | cons td rest ih =>
      obtain ⟨t, d⟩ := td
      intro b used b2 h
      rcases hpl : b.place_domino d with ⟨r, b1⟩
      cases r with
      | false =>
          simp only [tryCandidates, hpl] at h
          obtain ⟨hs1, hv1⟩ := place_false_state_valid b d b1 hpl
          obtain ⟨hs2, hv2⟩ := ih b1 used b2 h
          exact ⟨hs2.trans hs1, hv2.trans hv1⟩
      | true =>
          simp only [tryCandidates, hpl] at h
          obtain ⟨_, _, h1, h2, _, rfl⟩ := place_true_elim b d b1 hpl
          rcases hs : solveNext (placeMid b d) (t :: used) with _ | ⟨r2, b2'⟩
          · simp only [hs] at h
            cases h
          · simp only [hs] at h
            cases r2 with
            | true =>
                simp only [Option.some.injEq, Prod.mk.injEq] at h
                cases h.1
            | false =>
                obtain ⟨hs', hv'⟩ := hrec _ _ _ hs
                obtain ⟨hs2, hv2⟩ := ih _ used b2 h
                constructor
                · rw [hs2]
                  show dictErase (dictErase b2'.state d.pos1) d.pos2 = b.state
                  rw [hs']
                  exact undo_state b.state d.pos1 d.pos2 d.dots1 d.dots2 h1 h2
                · rw [hv2]
                  show b2'.valid_positions = b.valid_positions
                  rw [hv']
                  rfl

/-- A failed `solve` call leaves the board state as at entry. -/
theorem solveFuel_false_restores (fuel : Nat) :
    ∀ b used b2, solveFuel fuel b used = some (false, b2) →
      b2.state = b.state ∧ b2.valid_positions = b.valid_positions := by
  induction fuel with
  | zero =>
      intro b used b2 h
      simp [solveFuel] at h
  | succ n ih =>
      intro b used b2 h
      rw [solveFuel] at h
      split_ifs at h with hc
      · simp only [Option.some.injEq, Prod.mk.injEq] at h
        cases h.1
      · rcases he : b.get_empty_positions with _ | ⟨p1, rest⟩
        · rw [he] at h
          simp only [Option.some.injEq, Prod.mk.injEq, true_and] at h
          rw [h]
          exact ⟨rfl, rfl⟩
        · rw [he] at h
          exact tryCandidates_false_restores (solveFuel n) ih _ b used b2 h

/-- The candidate loop returns within the fuel bound, assuming the next
recursion level does under a bound smaller by one placement. -/
theorem tryCandidates_isSome
    (solveNext : Board → List (Int × Int) → Option (Bool × Board)) (n : Nat)
    (hrecSome : ∀ b used, b.get_empty_positions.length ≤ 2 * n →
      (solveNext b used).isSome = true)
    (hrecFalse : ∀ b used b2, solveNext b used = some (false, b2) →
      b2.state = b.state ∧ b2.valid_positions = b.valid_positions) :
    ∀ cands b used,
      (∀ td ∈ cands, ((td : (Int × Int) × Domino)).2.pos1 ≠ td.2.pos2) →
      b.get_empty_positions.length ≤ 2 * n + 2 →
      (tryCandidates solveNext cands b used).isSome = true := by
  intro cands
  induction cands with
  | nil =>
      intro b used _ _
      simp [tryCandidates]
  | cons td rest ih =>
      obtain ⟨t, d⟩ := td
      intro b used hdist hlen
      have hd : d.pos1 ≠ d.pos2 := hdist (t, d) (by simp)
      have hdist' : ∀ td ∈ rest, ((td : (Int × Int) × Domino)).2.pos1 ≠ td.2.pos2 :=
        fun td htd => hdist td (by simp [htd])
      rcases hpl : b.place_domino d with ⟨r, b1⟩
      cases r with
      | false =>
          simp only [tryCandidates, hpl]
          obtain ⟨hs1, hv1⟩ := place_false_state_valid b d b1 hpl
          refine ih b1 used hdist' ?_
          rw [get_empty_positions_congr b b1 hs1 hv1]
          exact hlen
      | true =>
          simp only [tryCandidates, hpl]
          have hble : b1.get_empty_positions.length + 2 ≤
              b.get_empty_positions.length := place_true_empty_le b d b1 hpl hd
          have hb1 : b1.get_empty_positions.length ≤ 2 * n := by omega
          have hSome := hrecSome b1 (t :: used) hb1
          obtain ⟨_, _, h1, h2, _, hb1eq⟩ := place_true_elim b d b1 hpl
          rcases hs : solveNext b1 (t :: used) with _ | ⟨r2, b2'⟩
          · rw [hs] at hSome
            cases hSome
          · cases r2 with
            | true => rfl
            | false =>
                obtain ⟨hs', hv'⟩ := hrecFalse _ _ _ hs
                refine ih (b2'.remove_domino d) used hdist' ?_
                have hrs : (b2'.remove_domino d).state = b.state := by
                  show dictErase (dictErase b2'.state d.pos1) d.pos2 = b.state
                  rw [hs', hb1eq]
                  exact undo_state b.state d.pos1 d.pos2 d.dots1 d.dots2 h1 h2
                have hrv : (b2'.remove_domino d).valid_positions =
                    b.valid_positions := by
                  show b2'.valid_positions = b.valid_positions
                  rw [hv', hb1eq]
                  rfl
                rw [get_empty_positions_congr b (b2'.remove_domino d) hrs hrv]
                exact hlen

/-- `solve` always returns within the code's own termination bound: one
fuel level per placement, each placement filling two cells. -/
theorem solveFuel_isSome (fuel : Nat) :
    ∀ b used, b.get_empty_positions.length ≤ 2 * fuel →
      (solveFuel (fuel + 1) b used).isSome = true := by
  induction fuel with
  | zero =>
      intro b used hlen
      have he : b.get_empty_positions = [] :=
        List.length_eq_zero.mp (Nat.le_zero.mp hlen)
      rw [solveFuel]
      split_ifs with hc
      · rfl
      · rw [he]
        rfl
  | succ n ih =>
      intro b used hlen
      rw [solveFuel]
      split_ifs with hc
      · rfl
      · rcases he : b.get_empty_positions with _ | ⟨p1, rest⟩
        · rfl
        · refine tryCandidates_isSome (solveFuel (n + 1)) n ih
            (solveFuel_false_restores (n + 1)) _ b used
            (candidates_pos_ne b used p1) ?_
          omega

/-! ### Region validation semantics -/

theorem filterMap_length_eq_of_all_isSome (l : List Position)
    (f : Position → Option Int) (h : ∀ p ∈ l, (f p).isSome = true) :
    (l.filterMap f).length = l.length := by
  induction l with
  | nil => simp
  | cons a rest ih =>
      obtain ⟨v, hv⟩ := Option.isSome_iff_exists.mp (h a (by simp))
      simp [List.filterMap_cons, hv, ih (fun p hp => h p (by simp [hp]))]

theorem filterMap_length_lt_of_none (l : List Position)
    (f : Position → Option Int) (p0 : Position) (hp0 : p0 ∈ l)
    (hnone : f p0 = none) : (l.filterMap f).length < l.length := by
  induction l with
  | nil => simp at hp0
  | cons a rest ih =>
      rcases List.mem_cons.mp hp0 with rfl | hp0'
      · rw [List.filterMap_cons, hnone]
        exact Nat.lt_succ_of_le (List.length_filterMap_le f rest)
      · cases hfa : f a
        · rw [List.filterMap_cons, hfa]
          exact Nat.lt_succ_of_lt (ih hp0')
        · rw [List.filterMap_cons, hfa]
          simpa using Nat.succ_lt_succ (ih hp0')

/-- The distinct count of a nonempty value list is one exactly when all its
values agree. -/
theorem dedup_length_eq_one_iff (l : List Int) (hl : l ≠ []) :
    l.dedup.length = 1 ↔ ∀ x ∈ l, ∀ y ∈ l, x = y := by
  constructor
  · intro h x hx y hy
    obtain ⟨a, ha⟩ := List.length_eq_one.mp h
    have hxa : x = a := by
      have := List.mem_dedup.mpr hx
      rw [ha] at this
      exact List.mem_singleton.mp this
    have hya : y = a := by
      have := List.mem_dedup.mpr hy
      rw [ha] at this
      exact List.mem_singleton.mp this
    rw [hxa, hya]
  · intro hall
    obtain ⟨a, t, rfl⟩ := List.exists_cons_of_ne_nil hl
    have ha : a ∈ (a :: t).dedup := List.mem_dedup.mpr (by simp)
    have hux : ∀ x ∈ (a :: t).dedup, x = a :=
      fun x hx => hall x (List.mem_dedup.mp hx) a (by simp)
    have hnd : (a :: t).dedup.Nodup := List.nodup_dedup (a :: t)
    rcases hdd : (a :: t).dedup with _ | ⟨b, t2⟩
    · rw [hdd] at ha
      simp at ha
    · rw [hdd] at hux hnd
      have hba : b = a := hux b (by simp)
      have ht2 : t2 = [] := by
        rw [List.eq_nil_iff_forall_not_mem]
        intro c hc
        have hca : c = a := hux c (by simp [hc])
        have hcb : c = b := hca.trans hba.symm
        exact (List.nodup_cons.mp hnd).1 (hcb ▸ hc)
      rw [ht2]
      rfl

/-- The distinct count equals the length exactly when the values are
pairwise distinct. -/
theorem dedup_length_eq_self_iff (l : List Int) :
    l.dedup.length = l.length ↔ l.Pairwise (fun x y => x ≠ y) := by
  constructor
  · intro h
    have : l.dedup = l := (List.dedup_sublist l).eq_of_length h
    have hnd : l.Nodup := this ▸ List.nodup_dedup l
    exact hnd
  · intro h
    rw [List.dedup_eq_self.mpr h]

/-- `Region.validate` on a fully filled region reduces to the constraint
branch alone. -/
theorem validate_full (r : Region) (s : BoardState)
    (hfill : ∀ p ∈ r.positions, (lookupState s p).isSome = true) :
    r.validate s =
      match r.constraint.constraint_type with
      | ConstraintType.NONE => true
      | ConstraintType.EQUAL => (regionDots r s).dedup.length == 1
      | ConstraintType.NOTEQUAL =>
          (regionDots r s).dedup.length == (regionDots r s).length
      | ConstraintType.GREATER_THAN =>
          match r.constraint.value with
          | none => true
          | some v => decide (v < (regionDots r s).sum)
      | ConstraintType.LESS_THAN =>
          match r.constraint.value with
          | none => true
          | some v => decide ((regionDots r s).sum < v)
      | ConstraintType.NUMBER =>
          match r.constraint.value with
          | none => true
          | some v => decide ((regionDots r s).sum = v) := by
  have hlen : (regionDots r s).length = r.positions.length :=
    filterMap_length_eq_of_all_isSome r.positions _ hfill
  show (if (regionDots r s).length < r.positions.length then true else _) = _
  rw [if_neg (by omega)]

/-! ### The claims -/

/-- C3: for a region all of whose positions are filled, validation follows
the sum-based semantics: None always true; Equal true exactly when all
values are identical; NotEqual true exactly when the values are pairwise
distinct; GreaterThan(v)/LessThan(v)/Number(v) true exactly when the sum of
the values is greater than / less than / equal to v. -/
theorem claim_C3_full_region_sum_semantics (r : Region) (s : BoardState)
    (hne : r.positions ≠ [])
    (hfill : ∀ p ∈ r.positions, (lookupState s p).isSome = true) :
    (r.constraint.constraint_type = ConstraintType.NONE →
      r.validate s = true) ∧
    (r.constraint.constraint_type = ConstraintType.EQUAL →
      (r.validate s = true ↔
        ∀ x ∈ regionDots r s, ∀ y ∈ regionDots r s, x = y)) ∧
    (r.constraint.constraint_type = ConstraintType.NOTEQUAL →
      (r.validate s = true ↔
        (regionDots r s).Pairwise (fun x y => x ≠ y))) ∧
    (∀ v, r.constraint.constraint_type = ConstraintType.GREATER_THAN →
      r.constraint.value = some v →
      (r.validate s = true ↔ v < (regionDots r s).sum)) ∧
    (∀ v, r.constraint.constraint_type = ConstraintType.LESS_THAN →
      r.constraint.value = some v →
      (r.validate s = true ↔ (regionDots r s).sum < v)) ∧
    (∀ v, r.constraint.constraint_type = ConstraintType.NUMBER →
      r.constraint.value = some v →
      (r.validate s = true ↔ (regionDots r s).sum = v)) := by
  have hv := validate_full r s hfill
  have hdne : regionDots r s ≠ [] := by
    have hlen : (regionDots r s).length = r.positions.length :=
      filterMap_length_eq_of_all_isSome r.positions _ hfill
    intro hc
    rw [hc] at hlen
    exact hne (List.eq_nil_of_length_eq_zero hlen.symm)
  refine ⟨?_, ?_, ?_, ?_, ?_, ?_⟩
  · intro h
    simp only [hv, h]
  · intro h
    simp only [hv, h]
    rw [beq_iff_eq]
    exact dedup_length_eq_one_iff _ hdne
  · intro h
    simp only [hv, h]
    rw [beq_iff_eq]
    exact dedup_length_eq_self_iff _
  · intro v h hval
    simp only [hv, h, hval]
    exact decide_eq_true_iff
  · intro v h hval
    simp only [hv, h, hval]
    exact decide_eq_true_iff
  · intro v h hval
    simp only [hv, h, hval]
    exact decide_eq_true_iff

/-- Witness for C3 at concrete regions: an Equal region with values 3,3
passes, and a Number(8) region with values 3,5 passes by the sum. -/
theorem claim_C3_witness :
    (Region.validate ⟨[⟨0, 0⟩, ⟨0, 1⟩], ⟨ConstraintType.EQUAL, none⟩⟩
        [(⟨0, 0⟩, 3), (⟨0, 1⟩, 3)] = true ↔
      ∀ x ∈ regionDots ⟨[⟨0, 0⟩, ⟨0, 1⟩], ⟨ConstraintType.EQUAL, none⟩⟩
        [(⟨0, 0⟩, 3), (⟨0, 1⟩, 3)],
      ∀ y ∈ regionDots ⟨[⟨0, 0⟩, ⟨0, 1⟩], ⟨ConstraintType.EQUAL, none⟩⟩
        [(⟨0, 0⟩, 3), (⟨0, 1⟩, 3)], x = y) ∧
    (Region.validate ⟨[⟨0, 0⟩, ⟨0, 1⟩], ⟨ConstraintType.NUMBER, some 8⟩⟩
        [(⟨0, 0⟩, 3), (⟨0, 1⟩, 5)] = true ↔
      (regionDots ⟨[⟨0, 0⟩, ⟨0, 1⟩], ⟨ConstraintType.NUMBER, some 8⟩⟩
        [(⟨0, 0⟩, 3), (⟨0, 1⟩, 5)]).sum = 8) :=
  ⟨(claim_C3_full_region_sum_semantics
      ⟨[⟨0, 0⟩, ⟨0, 1⟩], ⟨ConstraintType.EQUAL, none⟩⟩
      [(⟨0, 0⟩, 3), (⟨0, 1⟩, 3)] (by decide) (by decide)).2.1 rfl,
    (claim_C3_full_region_sum_semantics
      ⟨[⟨0, 0⟩, ⟨0, 1⟩], ⟨ConstraintType.NUMBER, some 8⟩⟩
      [(⟨0, 0⟩, 3), (⟨0, 1⟩, 5)] (by decide) (by decide)).2.2.2.2.2 8 rfl rfl⟩

/-- C4: a region with any unfilled position validates true, whatever the
constraint kind and whatever values are already present. -/
theorem claim_C4_partial_region_vacuous_pass (r : Region) (s : BoardState)
    (p0 : Position) (hp0 : p0 ∈ r.positions)
    (hnone : lookupState s p0 = none) : r.validate s = true := by
  show (if (regionDots r s).length < r.positions.length then true else _) = true
  rw [if_pos (show (regionDots r s).length < r.positions.length from
    filterMap_length_lt_of_none r.positions _ p0 hp0 hnone)]

/-- Witness for C4: an Equal region holding values 3 and 4 on two of its
three positions still validates true. -/
theorem claim_C4_witness :
    Region.validate ⟨[⟨0, 0⟩, ⟨0, 1⟩, ⟨0, 2⟩], ⟨ConstraintType.EQUAL, none⟩⟩
      [(⟨0, 0⟩, 3), (⟨0, 1⟩, 4)] = true :=
  claim_C4_partial_region_vacuous_pass
    ⟨[⟨0, 0⟩, ⟨0, 1⟩, ⟨0, 2⟩], ⟨ConstraintType.EQUAL, none⟩⟩
    [(⟨0, 0⟩, 3), (⟨0, 1⟩, 4)] ⟨0, 2⟩ (by decide) (by decide)

/-- C9: a GreaterThan, LessThan or Number constraint whose value is absent
validates true on every state, fully filled or not. -/
theorem claim_C9_missing_bound_vacuous (r : Region) (s : BoardState)
    (hct : r.constraint.constraint_type = ConstraintType.GREATER_THAN ∨
      r.constraint.constraint_type = ConstraintType.LESS_THAN ∨
      r.constraint.constraint_type = ConstraintType.NUMBER)
    (hv : r.constraint.value = none) : r.validate s = true := by
  simp only [Region.validate]
  split_ifs with h
  · rfl
  · rcases hct with h1 | h1 | h1 <;> simp [h1, hv]

/-- Witness for C9: a fully filled GreaterThan region with a missing bound
validates true. -/
theorem claim_C9_witness :
    Region.validate ⟨[⟨0, 0⟩], ⟨ConstraintType.GREATER_THAN, none⟩⟩
      [(⟨0, 0⟩, 6)] = true :=
  claim_C9_missing_bound_vacuous
    ⟨[⟨0, 0⟩], ⟨ConstraintType.GREATER_THAN, none⟩⟩ [(⟨0, 0⟩, 6)]
    (Or.inl rfl) rfl

/-- C10: `place_domino` never checks the two positions are distinct: a
degenerate domino with `pos1 = pos2` at a valid, unoccupied position writes
the single state entry `dots2` (overwriting `dots1`), appends the domino,
and succeeds whenever every region validates the resulting state. -/
theorem claim_C10_degenerate_domino (b : Board) (d : Domino)
    (hpp : d.pos1 = d.pos2) (hvp : d.pos1 ∈ b.valid_positions)
    (ho : lookupState b.state d.pos1 = none)
    (hall : b.regions.all
      (fun r => r.validate (b.state ++ [(d.pos1, d.dots2)])) = true) :
    b.place_domino d =
      (true, { b with
        state := b.state ++ [(d.pos1, d.dots2)]
        placed_dominoes := b.placed_dominoes ++ [d] }) := by
  have hvp2 : d.pos2 ∈ b.valid_positions := hpp ▸ hvp
  have ho2 : lookupState b.state d.pos2 = none := hpp ▸ ho
  have hmid : (placeMid b d).state = b.state ++ [(d.pos1, d.dots2)] := by
    rw [placeMid_state_eq b d ho ho2, if_pos hpp]
  have hA : ¬ (¬ b.is_valid_position d.pos1 = true ∨
      ¬ b.is_valid_position d.pos2 = true) := by
    rintro (hc | hc)
    · exact hc ((is_valid_position_iff b _).mpr hvp)
    · exact hc ((is_valid_position_iff b _).mpr hvp2)
  have hB : ¬ (b.is_position_occupied d.pos1 = true ∨
      b.is_position_occupied d.pos2 = true) := by
    rintro (hc | hc)
    · rw [Board.is_position_occupied, ho] at hc
      cases hc
    · rw [Board.is_position_occupied, ho2] at hc
      cases hc
  have hC : ((placeMid b d).regions.all
      (fun r => r.validate (placeMid b d).state)) = true := by
    show (b.regions.all (fun r => r.validate (placeMid b d).state)) = true
    rw [hmid]
    exact hall
  rw [Board.place_domino, if_neg hA, if_neg hB, if_pos hC]
  exact congrArg (Prod.mk true)
    (board_eq_of_parts _ _ rfl rfl rfl rfl rfl hmid rfl)

/-- Witness for C10: a degenerate domino on a one-cell board with a
Number(5) region places the single value 5 and succeeds. -/
theorem claim_C10_witness :
    Board.place_domino
      { rows := none, cols := none,
        regions := [⟨[⟨0, 0⟩], ⟨ConstraintType.NUMBER, some 5⟩⟩],
        available_dominoes := none, valid_positions := [⟨0, 0⟩],
        state := [], placed_dominoes := [] }
      ⟨⟨0, 0⟩, ⟨0, 0⟩, 3, 5⟩ =
      (true,
        { rows := none, cols := none,
          regions := [⟨[⟨0, 0⟩], ⟨ConstraintType.NUMBER, some 5⟩⟩],
          available_dominoes := none, valid_positions := [⟨0, 0⟩],
          state := [(⟨0, 0⟩, 5)],
          placed_dominoes := [⟨⟨0, 0⟩, ⟨0, 0⟩, 3, 5⟩] }) :=
  claim_C10_degenerate_domino
    { rows := none, cols := none,
      regions := [⟨[⟨0, 0⟩], ⟨ConstraintType.NUMBER, some 5⟩⟩],
      available_dominoes := none, valid_positions := [⟨0, 0⟩],
      state := [], placed_dominoes := [] }
    ⟨⟨0, 0⟩, ⟨0, 0⟩, 3, 5⟩ rfl (by decide) rfl (by decide)

/-- The board refuting the unrestricted C2. Built through the public API:
on a four-cell board with a Number(6) cage over cells (0,0) and (1,0),
place 1-2 and 5-6, remove a value-different 9-9 (leaving the 1-2 domino in
`placed` with its cells free), remove a value-different 8-8, then place the
tile reversed as 6-5. -/
def cexBoardC2 : Board :=
  ((((((mkBoard none none
      [⟨[⟨0, 0⟩, ⟨1, 0⟩], ⟨ConstraintType.NUMBER, some 6⟩⟩]
      (some [⟨0, 0⟩, ⟨0, 1⟩, ⟨1, 0⟩, ⟨1, 1⟩]) none).place_domino
      ⟨⟨0, 0⟩, ⟨0, 1⟩, 1, 2⟩).2.place_domino
      ⟨⟨1, 0⟩, ⟨1, 1⟩, 5, 6⟩).2.remove_domino
      ⟨⟨0, 0⟩, ⟨0, 1⟩, 9, 9⟩).remove_domino
      ⟨⟨1, 0⟩, ⟨1, 1⟩, 8, 8⟩).place_domino
      ⟨⟨1, 0⟩, ⟨1, 1⟩, 6, 5⟩).2

/-- C2 counterexample: on this API-reachable board, placing the 1-2 domino
fails on the Number(6) cage, yet the resulting board differs from the board
before the call — the undo removes the first value-equal entry of `placed`,
reordering the list. -/
theorem claim_C2_counterexample :
    Reachable cexBoardC2 ∧
    (cexBoardC2.place_domino ⟨⟨0, 0⟩, ⟨0, 1⟩, 1, 2⟩).1 = false ∧
    (cexBoardC2.place_domino ⟨⟨0, 0⟩, ⟨0, 1⟩, 1, 2⟩).2 ≠ cexBoardC2 := by
  refine ⟨?_, by decide, by decide⟩
  exact Reachable.place _ _ (Reachable.remove _ _ (Reachable.remove _ _
    (Reachable.place _ _ (Reachable.place _ _
      (Reachable.init none none
        [⟨[⟨0, 0⟩, ⟨1, 0⟩], ⟨ConstraintType.NUMBER, some 6⟩⟩]
        (some [⟨0, 0⟩, ⟨0, 1⟩, ⟨1, 0⟩, ⟨1, 1⟩]) none)))))

/-- C2 amended: under the solver discipline (every removal names a placed
domino) a failed `place_domino` restores the whole board exactly; on
arbitrary boards the `state` dict is always restored exactly — only the
order of `placed_dominoes` can differ, when the failing domino already
occurs there by value. -/
theorem claim_C2_place_failure_atomicity :
    (∀ (b : Board) (d : Domino) (b1 : Board), SolverReachable b →
      b.place_domino d = (false, b1) → b1 = b) ∧
    (∀ (b : Board) (d : Domino) (b1 : Board),
      b.place_domino d = (false, b1) → b1.state = b.state) :=
  ⟨fun b d b1 hreach h =>
      place_false_restores b d b1 (solverReachable_boardInv b hreach) h,
    fun b d b1 h => (place_false_state_valid b d b1 h).1⟩

/-- Witness for C2: placing an unequal domino on an Equal cage fails and
returns the board unchanged. -/
theorem claim_C2_witness :
    ((mkBoard none none [⟨[⟨0, 0⟩, ⟨0, 1⟩], ⟨ConstraintType.EQUAL, none⟩⟩]
        (some [⟨0, 0⟩, ⟨0, 1⟩]) none).place_domino
      ⟨⟨0, 0⟩, ⟨0, 1⟩, 1, 2⟩).2 =
      mkBoard none none [⟨[⟨0, 0⟩, ⟨0, 1⟩], ⟨ConstraintType.EQUAL, none⟩⟩]
        (some [⟨0, 0⟩, ⟨0, 1⟩]) none :=
  claim_C2_place_failure_atomicity.1
    (mkBoard none none [⟨[⟨0, 0⟩, ⟨0, 1⟩], ⟨ConstraintType.EQUAL, none⟩⟩]
      (some [⟨0, 0⟩, ⟨0, 1⟩]) none)
    ⟨⟨0, 0⟩, ⟨0, 1⟩, 1, 2⟩ _
    (SolverReachable.init none none
      [⟨[⟨0, 0⟩, ⟨0, 1⟩], ⟨ConstraintType.EQUAL, none⟩⟩]
      (some [⟨0, 0⟩, ⟨0, 1⟩]) none)
    (by decide)

/-- The board refuting the unrestricted C6. Built through the public API:
on a four-cell board without regions, place 1-2 and 3-4, then remove a
value-different 9-9, leaving the 1-2 domino in `placed` with its two cells
free. -/
def cexBoardC6 : Board :=
  ((((mkBoard none none []
      (some [⟨0, 0⟩, ⟨0, 1⟩, ⟨1, 0⟩, ⟨1, 1⟩]) none).place_domino
      ⟨⟨0, 0⟩, ⟨0, 1⟩, 1, 2⟩).2.place_domino
      ⟨⟨1, 0⟩, ⟨1, 1⟩, 3, 4⟩).2.remove_domino
      ⟨⟨0, 0⟩, ⟨0, 1⟩, 9, 9⟩)

/-- C6 counterexample: on this API-reachable board, placing the 1-2 domino
succeeds, yet removing it again yields a board different from the one
before the place — `remove_domino` deletes the first value-equal entry of
`placed`, reordering the list. -/
theorem claim_C6_counterexample :
    Reachable cexBoardC6 ∧
    (cexBoardC6.place_domino ⟨⟨0, 0⟩, ⟨0, 1⟩, 1, 2⟩).1 = true ∧
    ((cexBoardC6.place_domino ⟨⟨0, 0⟩, ⟨0, 1⟩, 1, 2⟩).2.remove_domino
      ⟨⟨0, 0⟩, ⟨0, 1⟩, 1, 2⟩) ≠ cexBoardC6 := by
  refine ⟨?_, by decide, by decide⟩
  exact Reachable.remove _ _ (Reachable.place _ _ (Reachable.place _ _
    (Reachable.init none none []
      (some [⟨0, 0⟩, ⟨0, 1⟩, ⟨1, 0⟩, ⟨1, 1⟩]) none)))

/-- C6 amended: under the solver discipline a successful `place_domino`
followed by `remove_domino` of the same domino restores the board exactly;
on arbitrary boards the `state` dict always returns exactly to its previous
contents — only the order of `placed_dominoes` can differ, when the placed
domino already occurred there by value. -/
theorem claim_C6_place_then_remove_roundtrip :
    (∀ (b : Board) (d : Domino) (b1 : Board), SolverReachable b →
      b.place_domino d = (true, b1) → b1.remove_domino d = b) ∧
    (∀ (b : Board) (d : Domino) (b1 : Board),
      b.place_domino d = (true, b1) → (b1.remove_domino d).state = b.state) := by
  refine ⟨fun b d b1 hreach h =>
      place_true_then_remove b d b1 (solverReachable_boardInv b hreach) h,
    fun b d b1 h => ?_⟩
  obtain ⟨_, _, h1, h2, _, rfl⟩ := place_true_elim b d b1 h
  exact remove_placeMid_state b d h1 h2

/-- Witness for C6: place a 3-3 domino on an Equal cage, then remove it;
the fresh board returns. -/
theorem claim_C6_witness :
    (((mkBoard none none [⟨[⟨0, 0⟩, ⟨0, 1⟩], ⟨ConstraintType.EQUAL, none⟩⟩]
        (some [⟨0, 0⟩, ⟨0, 1⟩]) none).place_domino
      ⟨⟨0, 0⟩, ⟨0, 1⟩, 3, 3⟩).2).remove_domino ⟨⟨0, 0⟩, ⟨0, 1⟩, 3, 3⟩ =
      mkBoard none none [⟨[⟨0, 0⟩, ⟨0, 1⟩], ⟨ConstraintType.EQUAL, none⟩⟩]
        (some [⟨0, 0⟩, ⟨0, 1⟩]) none :=
  claim_C6_place_then_remove_roundtrip.1
    (mkBoard none none [⟨[⟨0, 0⟩, ⟨0, 1⟩], ⟨ConstraintType.EQUAL, none⟩⟩]
      (some [⟨0, 0⟩, ⟨0, 1⟩]) none)
    ⟨⟨0, 0⟩, ⟨0, 1⟩, 3, 3⟩ _
    (SolverReachable.init none none
      [⟨[⟨0, 0⟩, ⟨0, 1⟩], ⟨ConstraintType.EQUAL, none⟩⟩]
      (some [⟨0, 0⟩, ⟨0, 1⟩]) none)
    (by decide)

/-- The board used to refute C7: a fresh two-cell board holding one placed
1-2 domino across its cells. -/
def cexBoardC7 : Board :=
  ((mkBoard none none [] (some [⟨0, 0⟩, ⟨0, 1⟩]) none).place_domino
    ⟨⟨0, 0⟩, ⟨0, 1⟩, 1, 2⟩).2

/-- C7 counterexample: removing a domino that is not in `placed_dominoes`
(same cells, different dots) is not a state no-op — it deletes the state
entries at the domino's two positions. -/
theorem claim_C7_counterexample :
    ((⟨⟨0, 0⟩, ⟨0, 1⟩, 3, 4⟩ : Domino) ∉ cexBoardC7.placed_dominoes) ∧
    (cexBoardC7.remove_domino ⟨⟨0, 0⟩, ⟨0, 1⟩, 3, 4⟩).state ≠
      cexBoardC7.state := by
  decide

theorem dictErase_length_lt (s : BoardState) (p : Position)
    (h : (lookupState s p).isSome = true) :
    (dictErase s p).length < s.length := by
  induction s with
  | nil => simp [lookupState] at h
  | cons kv rest ih =>
      obtain ⟨k, v⟩ := kv
      by_cases hk : k = p
      · simp only [dictErase, if_pos hk]
        exact Nat.lt_succ_self rest.length
      · rw [show lookupState ((k, v) :: rest) p = lookupState rest p by
            simp [lookupState, hk]] at h
        simpa [dictErase, hk] using Nat.succ_lt_succ (ih h)

/-- C7 amended: removing a domino that is not in `placed_dominoes` never
raises and leaves `placed_dominoes` unchanged, but it still deletes any
state entries at the domino's two positions: the call is a complete no-op
exactly when both positions are unoccupied. -/
theorem claim_C7_remove_absent_domino (b : Board) (d : Domino)
    (h : d ∉ b.placed_dominoes) :
    (b.remove_domino d).placed_dominoes = b.placed_dominoes ∧
    (lookupState b.state d.pos1 = none → lookupState b.state d.pos2 = none →
      b.remove_domino d = b) ∧
    ((lookupState b.state d.pos1).isSome = true ∨
      (lookupState b.state d.pos2).isSome = true →
      (b.remove_domino d).state ≠ b.state) := by
  refine ⟨listRemove_of_not_mem _ _ h, fun h1 h2 => ?_, fun hocc => ?_⟩
  · refine board_eq_of_parts _ _ rfl rfl rfl rfl rfl ?_
      (listRemove_of_not_mem _ _ h)
    show dictErase (dictErase b.state d.pos1) d.pos2 = b.state
    rw [dictErase_of_not_mem _ _ h1, dictErase_of_not_mem _ _ h2]
  · have hlt : (dictErase (dictErase b.state d.pos1) d.pos2).length <
        b.state.length := by
      by_cases h1 : (lookupState b.state d.pos1).isSome = true
      · exact Nat.lt_of_le_of_lt
          ((dictErase_sublist _ d.pos2).length_le)
          (dictErase_length_lt b.state d.pos1 h1)
      · have h1' : lookupState b.state d.pos1 = none := by
          cases hl : lookupState b.state d.pos1
          · rfl
          · exact absurd (by simp [hl]) h1
        have h2 : (lookupState b.state d.pos2).isSome = true := by
          rcases hocc with hc | hc
          · exact absurd hc h1
          · exact hc
        rw [dictErase_of_not_mem _ _ h1']
        exact dictErase_length_lt b.state d.pos2 h2
    intro hc
    rw [show (b.remove_domino d).state =
      dictErase (dictErase b.state d.pos1) d.pos2 from rfl] at hc
    have := congrArg List.length hc
    omega

/-- Witness for the amended C7: removing an absent domino from a fresh
empty board is a complete no-op. -/
theorem claim_C7_witness :
    ((mkBoard none none [] (some [⟨0, 0⟩, ⟨0, 1⟩]) none).remove_domino
        ⟨⟨0, 0⟩, ⟨0, 1⟩, 3, 4⟩).placed_dominoes =
      (mkBoard none none [] (some [⟨0, 0⟩, ⟨0, 1⟩]) none).placed_dominoes ∧
    (mkBoard none none [] (some [⟨0, 0⟩, ⟨0, 1⟩]) none).remove_domino
        ⟨⟨0, 0⟩, ⟨0, 1⟩, 3, 4⟩ =
      mkBoard none none [] (some [⟨0, 0⟩, ⟨0, 1⟩]) none :=
  let hmain := claim_C7_remove_absent_domino
    (mkBoard none none [] (some [⟨0, 0⟩, ⟨0, 1⟩]) none)
    ⟨⟨0, 0⟩, ⟨0, 1⟩, 3, 4⟩ (by decide)
  ⟨hmain.1, hmain.2.1 rfl rfl⟩

/-- The board defeating C5: a fresh two-cell board where a 1-2 domino was
placed and then a value-different 3-4 domino was removed, wiping the state
while the placed list keeps the 1-2 domino. -/
def cexBoardC5 : Board :=
  (((mkBoard none none [] (some [⟨0, 0⟩, ⟨0, 1⟩]) none).place_domino
    ⟨⟨0, 0⟩, ⟨0, 1⟩, 1, 2⟩).2).remove_domino ⟨⟨0, 0⟩, ⟨0, 1⟩, 3, 4⟩

/-- C5 counterexample: a board reachable by an arbitrary
place/remove sequence from a fresh board whose state keys are not the
union of the positions covered by its placed dominoes. -/
theorem claim_C5_counterexample :
    Reachable cexBoardC5 ∧
    ¬ (∀ p, p ∈ stateKeys cexBoardC5.state ↔
        ∃ d ∈ cexBoardC5.placed_dominoes, p ∈ dominoPositions d) := by
  constructor
  · exact Reachable.remove _ _ (Reachable.place _ _
      (Reachable.init none none [] (some [⟨0, 0⟩, ⟨0, 1⟩]) none))
  · intro hcl
    have h1 : (⟨0, 0⟩ : Position) ∈ stateKeys cexBoardC5.state :=
      (hcl ⟨0, 0⟩).mpr ⟨⟨⟨0, 0⟩, ⟨0, 1⟩, 1, 2⟩, by decide, by decide⟩
    exact absurd h1 (by decide)

/-- C5 amended: on every board reachable when each `remove_domino` call
names a currently placed domino (the solver's discipline), the state keys
are valid positions, they are exactly the union of the positions covered by
`placed_dominoes`, and no two placed dominoes overlap. -/
theorem claim_C5_reachable_invariant (b : Board) (h : SolverReachable b) :
    (∀ p ∈ stateKeys b.state, p ∈ b.valid_positions) ∧
    (∀ p, p ∈ stateKeys b.state ↔
      ∃ d ∈ b.placed_dominoes, p ∈ dominoPositions d) ∧
    b.placed_dominoes.Pairwise
      (fun d1 d2 => ∀ p, p ∈ dominoPositions d1 → p ∉ dominoPositions d2) :=
  let hInv := solverReachable_boardInv b h
  ⟨hInv.keys_valid, hInv.cover, hInv.disjoint⟩

/-- The board witnessing the amended C5: a fresh two-cell board with one
placed domino. -/
def witBoardC5 : Board :=
  ((mkBoard none none [] (some [⟨0, 0⟩, ⟨0, 1⟩]) none).place_domino
    ⟨⟨0, 0⟩, ⟨0, 1⟩, 1, 2⟩).2

/-- Witness for the amended C5, at a fresh two-cell board with one placed
domino. -/
theorem claim_C5_witness :
    (∀ p ∈ stateKeys witBoardC5.state, p ∈ witBoardC5.valid_positions) ∧
    (∀ p, p ∈ stateKeys witBoardC5.state ↔
      ∃ d ∈ witBoardC5.placed_dominoes, p ∈ dominoPositions d) ∧
    witBoardC5.placed_dominoes.Pairwise
      (fun d1 d2 => ∀ p, p ∈ dominoPositions d1 → p ∉ dominoPositions d2) :=
  claim_C5_reachable_invariant witBoardC5
    (SolverReachable.place _ _
      (SolverReachable.init none none [] (some [⟨0, 0⟩, ⟨0, 1⟩]) none))

/-- C8: the backtracking search terminates on every board. (a) On a
duplicate-free cell set, a successful two-cell placement reduces the count
of empty valid positions by exactly two; (b) `solve` therefore returns
within `empty/2 + 1` recursion levels — the fuel-indexed embedding never
runs out given that much fuel — and in particular within
`|valid_positions|/2 + 1` levels; (c) a board with zero valid positions and
empty state returns success immediately, with the board (so also `placed`)
untouched. -/
theorem claim_C8_termination :
    (∀ (b : Board) (d : Domino) (b1 : Board), b.valid_positions.Nodup →
      d.pos1 ≠ d.pos2 → b.place_domino d = (true, b1) →
      b1.get_empty_positions.length + 2 = b.get_empty_positions.length) ∧
    (∀ (fuel : Nat) (b : Board) (used : List (Int × Int)),
      b.get_empty_positions.length ≤ 2 * fuel →
      (solveFuel (fuel + 1) b used).isSome = true) ∧
    (∀ (b : Board) (used : List (Int × Int)),
      (solveFuel ((b.valid_positions.length + 1) / 2 + 1) b used).isSome = true) ∧
    (∀ (b : Board), b.valid_positions = [] → b.state = [] →
      ∀ (fuel : Nat) (used : List (Int × Int)),
        solveFuel (fuel + 1) b used = some (true, b)) := by
  refine ⟨?_, ?_, ?_, ?_⟩
  · exact fun b d b1 hnd hne h => place_true_empty_exact b d b1 hnd hne h
  · exact fun fuel b used h => solveFuel_isSome fuel b used h
  · intro b used
    have h1 : b.get_empty_positions.length ≤ b.valid_positions.length := by
      calc b.get_empty_positions.length
          ≤ (sortPositions b.valid_positions).length :=
            List.length_filter_le _ _
        _ = b.valid_positions.length := (sortPositions_perm _).length_eq
    exact solveFuel_isSome _ b used (by omega)
  · intro b hv hs fuel used
    have hc : b.is_complete = true := by
      rw [Board.is_complete, hv, hs]
      rfl
    rw [solveFuel, if_pos hc]

/-- Witness for C8 at concrete boards: a placement on a fresh two-cell
board drops the empty count from 2 to 0; that board is solved within the
bound; a board with no valid positions succeeds immediately. -/
theorem claim_C8_witness :
    (((mkBoard none none [] (some [⟨0, 0⟩, ⟨0, 1⟩]) none).place_domino
        ⟨⟨0, 0⟩, ⟨0, 1⟩, 0, 0⟩).2.get_empty_positions.length + 2 =
      (mkBoard none none [] (some [⟨0, 0⟩, ⟨0, 1⟩])
        none).get_empty_positions.length ∧
    (solveFuel 2 (mkBoard none none [] (some [⟨0, 0⟩, ⟨0, 1⟩]) none)
      []).isSome = true ∧
    solveFuel 1 (mkBoard none none [] none none) [] =
      some (true, mkBoard none none [] none none)) :=
  ⟨claim_C8_termination.1
      (mkBoard none none [] (some [⟨0, 0⟩, ⟨0, 1⟩]) none)
      ⟨⟨0, 0⟩, ⟨0, 1⟩, 0, 0⟩ _ (by decide) (by decide) (by decide),
    claim_C8_termination.2.1 1
      (mkBoard none none [] (some [⟨0, 0⟩, ⟨0, 1⟩]) none) [] (by decide),
    claim_C8_termination.2.2.2 (mkBoard none none [] none none) rfl rfl 0 []⟩

/-- The 2x4 board of the repository's own test
`test_puzzle_cannot_solve_with_insufficient_dominoes`: eight cells, no
regions, tile inventory restricted to the two tiles (0,0) and (1,1), so
four placements are needed but only two tile types are supplied. -/
def boardC1 : Board :=
  mkBoard (some 2) (some 4) [] none (some [(0, 0), (1, 1)])

/-- C1: the solver does NOT honour the restricted inventory. Its tile list
comes from `_generate_dominoes`, which always yields all 28 standard tiles
and never reads `available_dominoes`; consequently `solve` SUCCEEDS on the
2x4 board whose inventory supplies only 2 tile types, where the claim (and
the repository's own tests) demand failure. -/
theorem claim_C1_solver_ignores_inventory :
    boardC1.available_dominoes = some [(0, 0), (1, 1)] ∧
    generateDominoes.length = 28 ∧
    (solveFuel 9 boardC1 []).map Prod.fst = some true := by
  refine ⟨rfl, rfl, ?_⟩
  decide

end Pips
